import Mathlib

/-!
# Verification of the voxgen voxel-generation library

Shallow embedding of the voxgen Rust library (buffer.rs, voxel_buffer.rs,
turtle.rs, l_system.rs) together with theorems about its specification.

Modelling conventions:
* `u32` / `usize` / `u8` values are `Nat`, with an explicit `% 2 ^ 32`
  (resp. `% 256`) wherever the Rust arithmetic can wrap.  For a constructible
  buffer (`VolumeBuffer::new` checks `4 * w * d * h` against `usize::MAX`)
  the index arithmetic `x + y * w + z * w * d` cannot overflow `usize`,
  so it is modelled as plain `Nat` arithmetic.
* Byte vectors (`Vec<u8>`) are `List Nat` with every element below 256.
* Voxel storage (`data : Vec<u8>`, viewed through the `Voxel` trait as
  fixed 4-byte `Rgba` records) is modelled as a function from the linear
  voxel index to the `Rgba` record.
* Functions that can panic (out-of-bounds access, `unwrap`, slice indexing,
  `usize` underflow in `palette[i - 1]`) return `Option`, with `none` for
  the panicking executions.
* `HashMap<Rgba, u8>` is modelled as an association list in insertion
  order.  The only iteration over the map (the palette fill loop) writes
  to pairwise distinct palette cells, so its result does not depend on the
  iteration order and the fixed insertion order is faithful.
* The `f32` position/heading arithmetic of the turtle is modelled over `ℝ`
  with exact trigonometric functions; `as i32` truncation toward zero is
  `rtrunc`.  On the concrete scenarios proved below the `f32` evaluation
  agrees with the real-valued model.
-/

/-- An RGBA voxel: the 4-byte record `Rgba(pub [u8; 4])` of buffer.rs and
voxel_buffer.rs (fields are the four channel bytes). -/
structure Rgba where
  r : Nat
  g : Nat
  b : Nat
  a : Nat
deriving DecidableEq, Repr

/-- The fully transparent zero voxel, the zero-initialized buffer content. -/
def Rgba.zero : Rgba := ⟨0, 0, 0, 0⟩

/-- `Rgba::as_slice`: the 4-byte view of a voxel record. -/
def Rgba.toBytes (c : Rgba) : List Nat := [c.r, c.g, c.b, c.a]

/-- Row-major linear index `x + y * width + z * width * depth`, the shared
formula of `VolumeBuffer::id_unchecked` (buffer.rs) and
`ArrayVoxelBuffer::voxel_indices_unchecked` (voxel_buffer.rs). -/
def linearId (w d x y z : Nat) : Nat := x + y * w + z * (w * d)

/-- `VolumeBuffer::coordinate_unchecked` (buffer.rs): recover `(x, y, z)`
from a linear index, exactly as the source computes it. -/
def coordOf (w d id : Nat) : Nat × Nat × Nat :=
  let z := id / (w * d)
  let plane := id - z * (w * d)
  let y := plane / w
  let x := plane % w
  (x, y, z)

/-- Generic dense volumetric buffer `VolumeBuffer<Rgba>` of buffer.rs:
dimensions plus the voxel store, addressed by linear index. -/
structure VolumeBuffer where
  width : Nat
  depth : Nat
  height : Nat
  vox : Nat → Rgba

/-- `VolumeBuffer::id` (buffer.rs): bounds-checked coordinate → index. -/
def VolumeBuffer.id (b : VolumeBuffer) (x y z : Nat) : Option Nat :=
  if x ≥ b.width ∨ y ≥ b.depth ∨ z ≥ b.height then none
  else some (linearId b.width b.depth x y z)

/-- `VolumeBuffer::coordinate` (buffer.rs): bounds-checked index → coordinate. -/
def VolumeBuffer.coordinate (b : VolumeBuffer) (id : Nat) : Option (Nat × Nat × Nat) :=
  if id ≥ b.width * b.depth * b.height then none
  else some (coordOf b.width b.depth id)

/-- Closed form of `coordOf`. -/
theorem coordOf_eq (w d id : Nat) :
    coordOf w d id = (id % w, id / w % d, id / (w * d)) := by
  have hplane : id - id / (w * d) * (w * d) = id % (w * d) := by
    have h2 := Nat.div_add_mod id (w * d)
    rw [Nat.mul_comm] at h2
    generalize id / (w * d) * (w * d) = A at h2 ⊢
    generalize id % (w * d) = M at h2 ⊢
    omega
  show (_, _, _) = (_, _, _)
  rw [hplane, Nat.mod_mul_right_div_self, Nat.mod_mod_of_dvd id (dvd_mul_right w d)]

theorem linearId_lt (w d h x y z : Nat) (hx : x < w) (hy : y < d) (hz : z < h) :
    linearId w d x y z < w * d * h := by
  unfold linearId
  have h1 : x + y * w < w * d := by
    calc x + y * w < w + y * w := by omega
    _ = (y + 1) * w := by ring
    _ ≤ d * w := Nat.mul_le_mul_right w hy
    _ = w * d := Nat.mul_comm d w
  calc x + y * w + z * (w * d) < w * d + z * (w * d) := by omega
  _ = (z + 1) * (w * d) := by ring
  _ ≤ h * (w * d) := Nat.mul_le_mul_right (w * d) hz
  _ = w * d * h := Nat.mul_comm h (w * d)

theorem coordOf_linearId (w d x y z : Nat) (hx : x < w) (hy : y < d) :
    coordOf w d (linearId w d x y z) = (x, y, z) := by
  have hw : 0 < w := lt_of_le_of_lt (Nat.zero_le x) hx
  have hd : 0 < d := lt_of_le_of_lt (Nat.zero_le y) hy
  have hwd : 0 < w * d := Nat.mul_pos hw hd
  rw [coordOf_eq]
  unfold linearId
  have e1 : x + y * w + z * (w * d) = x + (y + d * z) * w := by ring
  have hxw : (x + y * w + z * (w * d)) % w = x := by
    rw [e1, Nat.add_mul_mod_self_right, Nat.mod_eq_of_lt hx]
  have hdivw : (x + y * w + z * (w * d)) / w = y + d * z := by
    rw [e1, Nat.add_mul_div_right _ _ hw, Nat.div_eq_of_lt hx, Nat.zero_add]
  have hyd : (x + y * w + z * (w * d)) / w % d = y := by
    rw [hdivw]
    have : y + d * z = y + z * d := by ring
    rw [this, Nat.add_mul_mod_self_right, Nat.mod_eq_of_lt hy]
  have hsmall : x + y * w < w * d := by
    calc x + y * w < w + y * w := by omega
    _ = (y + 1) * w := by ring
    _ ≤ d * w := Nat.mul_le_mul_right w hy
    _ = w * d := Nat.mul_comm d w
  have hz3 : (x + y * w + z * (w * d)) / (w * d) = z := by
    rw [Nat.add_mul_div_right _ _ hwd, Nat.div_eq_of_lt hsmall, Nat.zero_add]
  rw [hxw, hyd, hz3]

theorem linearId_coordOf (w d n : Nat) :
    linearId w d (coordOf w d n).1 (coordOf w d n).2.1 (coordOf w d n).2.2 = n := by
  rw [coordOf_eq]
  unfold linearId
  show n % w + n / w % d * w + n / (w * d) * (w * d) = n
  rw [← Nat.div_div_eq_div_mul n w d]
  have B := Nat.mod_add_div (n / w) d
  have key : n / w % d * w + n / w / d * (w * d) = n / w * w := by
    calc n / w % d * w + n / w / d * (w * d) = (n / w % d + d * (n / w / d)) * w := by ring
    _ = n / w * w := by rw [B]
  calc n % w + n / w % d * w + n / w / d * (w * d)
      = n % w + (n / w % d * w + n / w / d * (w * d)) := by ring
  _ = n % w + n / w * w := by rw [key]
  _ = n := Nat.mod_add_div' n w

/-- Componentwise bounds for `coordOf`. -/
theorem coordOf_lt (w d h n : Nat) (hw : 0 < w) (hd : 0 < d) (hn : n < w * d * h) :
    (coordOf w d n).1 < w ∧ (coordOf w d n).2.1 < d ∧ (coordOf w d n).2.2 < h := by
  rw [coordOf_eq]
  refine ⟨Nat.mod_lt _ hw, Nat.mod_lt _ hd, ?_⟩
  show n / (w * d) < h
  rw [Nat.div_lt_iff_lt_mul (Nat.mul_pos hw hd)]
  calc n < w * d * h := hn
  _ = h * (w * d) := by ring

/-! ## The voxel enumeration iterator (`EnumerateVoxels::next`, buffer.rs)

The Rust iterator keeps counters `(x, y, z)`; each `next` call first
normalizes them (rolling `x` over into `y`, then `y` into `z`), then yields
the normalized coordinate together with the next 4-byte chunk of `data`,
then increments `x`.  `enumStep` returns the yielded coordinate and the
post-increment counter state; `enumFrom` runs the iterator `n` times, where
`n` is the number of chunks (`ChunksExact` on `4 * w * d * h` bytes yields
exactly `w * d * h` chunks). -/

/-- One `next` call of `EnumerateVoxels`: (yielded coordinate, next state). -/
def enumStep (w d : Nat) (s : Nat × Nat × Nat) : (Nat × Nat × Nat) × (Nat × Nat × Nat) :=
  let x := s.1
  let y := s.2.1
  let z := s.2.2
  let p1 := if x ≥ w then (0, y + 1) else (x, y)
  let p2 := if p1.2 ≥ d then (0, z + 1) else (p1.2, z)
  ((p1.1, p2.1, p2.2), (p1.1 + 1, p2.1, p2.2))

/-- Run the iterator `n` times from counter state `s`, collecting the
yielded coordinates. -/
def enumFrom (w d : Nat) : Nat × Nat × Nat → Nat → List (Nat × Nat × Nat)
  | _, 0 => []
  | s, n + 1 => (enumStep w d s).1 :: enumFrom w d (enumStep w d s).2 n

/-- The iterator's counter state before the `(k+1)`-st `next` call. -/
def stateAt (w d : Nat) : Nat → Nat × Nat × Nat
  | 0 => (0, 0, 0)
  | k + 1 => ((coordOf w d k).1 + 1, (coordOf w d k).2.1, (coordOf w d k).2.2)

theorem linearId_succ_x (w d x y z : Nat) :
    linearId w d (x + 1) y z = linearId w d x y z + 1 := by
  unfold linearId; ring

theorem linearId_rollover_y (w d x y z : Nat) (hxw : x + 1 = w) :
    linearId w d 0 (y + 1) z = linearId w d x y z + 1 := by
  subst hxw; unfold linearId; ring

theorem linearId_rollover_z (w d x y z : Nat) (hxw : x + 1 = w) (hyd : y + 1 = d) :
    linearId w d 0 0 (z + 1) = linearId w d x y z + 1 := by
  subst hxw; subst hyd; unfold linearId; ring

/-- Componentwise `x`/`y` bounds of `coordOf`, valid for every index. -/
theorem coordOf_bounds (w d n : Nat) (hw : 0 < w) (hd : 0 < d) :
    (coordOf w d n).1 < w ∧ (coordOf w d n).2.1 < d := by
  rw [coordOf_eq]
  exact ⟨Nat.mod_lt _ hw, Nat.mod_lt _ hd⟩

/-- One iterator step from the canonical state yields `coordOf k` and moves
to the next canonical state. -/
theorem enumStep_stateAt (w d : Nat) (hw : 0 < w) (hd : 0 < d) (k : Nat) :
    enumStep w d (stateAt w d k) = (coordOf w d k, stateAt w d (k + 1)) := by
  cases k with
  | zero =>
    have h0 : coordOf w d 0 = (0, 0, 0) := by
      rw [coordOf_eq]; simp
    simp [stateAt, enumStep, Nat.not_le.mpr hw, Nat.not_le.mpr hd, h0]
  | succ j =>
    obtain ⟨hxw, hyd⟩ := coordOf_bounds w d j hw hd
    have hj := linearId_coordOf w d j
    set x := (coordOf w d j).1 with hxdef
    set y := (coordOf w d j).2.1 with hydef
    set z := (coordOf w d j).2.2 with hzdef
    show enumStep w d (x + 1, y, z) = (coordOf w d (j + 1), stateAt w d (j + 1 + 1))
    by_cases h1 : x + 1 < w
    · have hco : coordOf w d (j + 1) = (x + 1, y, z) := by
        rw [← hj, ← linearId_succ_x]
        exact coordOf_linearId w d (x + 1) y z h1 hyd
      simp [enumStep, stateAt, hco, Nat.not_le.mpr h1, Nat.not_le.mpr hyd]
    · have hxe : x + 1 = w := by omega
      by_cases h2 : y + 1 < d
      · have hco : coordOf w d (j + 1) = (0, y + 1, z) := by
          rw [← hj, ← linearId_rollover_y w d x y z hxe]
          exact coordOf_linearId w d 0 (y + 1) z hw h2
        simp [enumStep, stateAt, hco, Nat.le_of_eq hxe.symm, Nat.not_le.mpr h2]
      · have hye : y + 1 = d := by omega
        have hco : coordOf w d (j + 1) = (0, 0, z + 1) := by
          rw [← hj, ← linearId_rollover_z w d x y z hxe hye]
          exact coordOf_linearId w d 0 0 (z + 1) hw hd
        simp [enumStep, stateAt, hco, Nat.le_of_eq hxe.symm, Nat.le_of_eq hye.symm]

/-- Running the iterator from the canonical state at `k` yields the
coordinates of the linear indices `k, k+1, ...`. -/
theorem enumFrom_stateAt (w d : Nat) (hw : 0 < w) (hd : 0 < d) :
    ∀ n k, enumFrom w d (stateAt w d k) n = (List.range' k n).map (coordOf w d) := by
  intro n
  induction n with
  | zero => intro k; simp [enumFrom]
  | succ m ih =>
    intro k
    rw [List.range'_succ]
    show (enumStep w d (stateAt w d k)).1 :: enumFrom w d (enumStep w d (stateAt w d k)).2 m = _
    rw [enumStep_stateAt w d hw hd k]
    simp only [List.map_cons]
    exact congrArg _ (ih (k + 1))

/-- The full iterator run enumerates `coordOf` over ascending linear indices. -/
theorem enumFrom_zero (w d : Nat) (hw : 0 < w) (hd : 0 < d) (n : Nat) :
    enumFrom w d (0, 0, 0) n = (List.range n).map (coordOf w d) := by
  have h := enumFrom_stateAt w d hw hd n 0
  rw [List.range_eq_range']
  exact h

/-- `VolumeBuffer::enumerate_voxels` (buffer.rs): the iterator pairs each
yielded coordinate with the next 4-byte chunk of `data`, i.e. with the
voxel at the next linear index; it stops when the chunks run out, after
exactly `width * depth * height` items. -/
def VolumeBuffer.enumerate_voxels (b : VolumeBuffer) : List ((Nat × Nat × Nat) × Rgba) :=
  (enumFrom b.width b.depth (0, 0, 0) (b.width * b.depth * b.height)).zip
    ((List.range (b.width * b.depth * b.height)).map b.vox)

theorem enumerate_voxels_eq (w d h : Nat) (vox : Nat → Rgba) :
    (VolumeBuffer.enumerate_voxels ⟨w, d, h, vox⟩) =
      (List.range (w * d * h)).map (fun n => (coordOf w d n, vox n)) := by
  unfold VolumeBuffer.enumerate_voxels
  by_cases hw : 0 < w
  · by_cases hd : 0 < d
    · rw [enumFrom_zero w d hw hd, List.zip_map']
    · have : w * d * h = 0 := by
        have : d = 0 := by omega
        simp [this]
      simp [this, enumFrom]
  · have : w * d * h = 0 := by
      have : w = 0 := by omega
      simp [this]
    simp [this, enumFrom]

/-- The coordinate order of the nested `for z { for y { for x } }` loops of
`ArrayVoxelBuffer::<Rgba>::save` (voxel_buffer.rs). -/
def nestedCoords (w d h : Nat) : List (Nat × Nat × Nat) :=
  (List.range h).flatMap fun z =>
    (List.range d).flatMap fun y =>
      (List.range w).map fun x => (x, y, z)

theorem row_eq_range' (w d y z : Nat) (hy : y < d) :
    ((List.range w).map fun x => (x, y, z)) =
      (List.range' (z * (w * d) + y * w) w).map (coordOf w d) := by
  rw [List.range'_eq_map_range, List.map_map]
  refine List.map_congr_left fun x hx => ?_
  rw [List.mem_range] at hx
  show (x, y, z) = coordOf w d (z * (w * d) + y * w + x)
  have e : z * (w * d) + y * w + x = linearId w d x y z := by
    unfold linearId; ring
  rw [e, coordOf_linearId w d x y z hx hy]

theorem plane_eq_range' (w d z : Nat) : ∀ j, j ≤ d →
    ((List.range j).flatMap fun y => (List.range w).map fun x => (x, y, z)) =
      (List.range' (z * (w * d)) (j * w)).map (coordOf w d) := by
  intro j
  induction j with
  | zero => intro _; simp
  | succ m ih =>
    intro hm
    rw [List.range_succ, List.flatMap_append, ih (by omega)]
    have hsplit : List.range' (z * (w * d)) (m * w) ++
        List.range' (z * (w * d) + m * w) w = List.range' (z * (w * d)) ((m + 1) * w) := by
      have hr := List.range'_append (z * (w * d)) (m * w) w 1
      rw [one_mul] at hr
      have he : w + m * w = (m + 1) * w := by ring
      rw [he] at hr
      exact hr
    rw [← hsplit, List.map_append]
    simp only [List.flatMap_singleton]
    rw [row_eq_range' w d m z (by omega)]

theorem nestedCoords_eq (w d h : Nat) :
    nestedCoords w d h = (List.range (w * d * h)).map (coordOf w d) := by
  unfold nestedCoords
  have main : ∀ j, ((List.range j).flatMap fun z =>
      (List.range d).flatMap fun y => (List.range w).map fun x => (x, y, z)) =
      (List.range' 0 (j * (w * d))).map (coordOf w d) := by
    intro j
    induction j with
    | zero => simp
    | succ m ih =>
      rw [List.range_succ, List.flatMap_append, ih]
      have hsplit : List.range' 0 (m * (w * d)) ++
          List.range' (m * (w * d)) (w * d) = List.range' 0 ((m + 1) * (w * d)) := by
        have hr := List.range'_append 0 (m * (w * d)) (w * d) 1
        rw [one_mul, Nat.zero_add] at hr
        have he : w * d + m * (w * d) = (m + 1) * (w * d) := by ring
        rw [he] at hr
        exact hr
      rw [← hsplit, List.map_append]
      simp only [List.flatMap_singleton]
      rw [plane_eq_range' w d m d (Nat.le_refl d)]
      have hdw : d * w = w * d := Nat.mul_comm d w
      rw [hdw]
  have e : w * d * h = h * (w * d) := by ring
  rw [main h, ← List.range_eq_range', e]

/-! ## The .vox encoder (`save` of buffer.rs and voxel_buffer.rs)

Both `save` implementations run the same per-voxel body over their voxel
walk: look the voxel value up in the `HashMap` of palette indices, insert
it with the next free index if absent, and push the 4-byte
`(x, y, z, slot)` record when the alpha channel is non-zero.  The walk
differs: buffer.rs uses the `enumerate_voxels` iterator, voxel_buffer.rs
uses nested `z/y/x` loops fetching `self.voxel(x, y, z)` (always in
bounds inside the loops).  The byte assembly after the walk is literally
the same source text in both files and is shared here as
`vox_file_bytes`. -/

/-- `ArrayVoxelBuffer<Rgba>` of voxel_buffer.rs. -/
structure ArrayVoxelBuffer where
  size_x : Nat
  size_y : Nat
  size_z : Nat
  vox : Nat → Rgba

/-- `ArrayVoxelBuffer::voxel` / `voxel_mut` bounds-checked read
(`none` models the out-of-bounds panic). -/
def ArrayVoxelBuffer.voxel (b : ArrayVoxelBuffer) (x y z : Nat) : Option Rgba :=
  if x < b.size_x ∧ y < b.size_y ∧ z < b.size_z then
    some (b.vox (linearId b.size_x b.size_y x y z))
  else none

/-- `ArrayVoxelBuffer::voxel_mut` followed by a store: write voxel
`(x, y, z)`; `none` models the out-of-bounds panic. -/
def ArrayVoxelBuffer.voxel_set (b : ArrayVoxelBuffer) (x y z : Nat) (v : Rgba) :
    Option ArrayVoxelBuffer :=
  if x < b.size_x ∧ y < b.size_y ∧ z < b.size_z then
    some { b with vox := fun n =>
      if n = linearId b.size_x b.size_y x y z then v else b.vox n }
  else none

/-- The mutable state of the voxel walk in `save`: the `color_indices`
hash map (as an association list in insertion order), the next free
palette index `index : u8`, and the collected 4-byte `xyzi` records. -/
structure VoxState where
  colorIndices : List (Rgba × Nat)
  index : Nat
  xyzis : List (List Nat)
deriving DecidableEq, Repr

/-- `HashMap::get` on the association list. -/
def lookupColor : List (Rgba × Nat) → Rgba → Option Nat
  | [], _ => none
  | (c, i) :: rest, r => if c = r then some i else lookupColor rest r

/-- The body of the per-voxel loop of `save` (identical in buffer.rs and
voxel_buffer.rs): build the record `[x as u8, y as u8, z as u8, slot]`,
assign a fresh palette index on first sight of the value, and push the
record when the alpha channel is positive.  `index += 1` on the `u8`
counter is modelled with a wrap (`% 256`); the Rust program cannot reach
the wrap and then still produce a file, because a wrapped index `0` makes
the palette write below panic. -/
def processVoxel (s : VoxState) (x y z : Nat) (rgba : Rgba) : VoxState :=
  match lookupColor s.colorIndices rgba with
  | none =>
      { colorIndices := s.colorIndices ++ [(rgba, s.index)]
        index := (s.index + 1) % 256
        xyzis := if rgba.a > 0 then s.xyzis ++ [[x % 256, y % 256, z % 256, s.index]]
                 else s.xyzis }
  | some i =>
      { colorIndices := s.colorIndices
        index := s.index
        xyzis := if rgba.a > 0 then s.xyzis ++ [[x % 256, y % 256, z % 256, i]]
                 else s.xyzis }

/-- Initial walk state: empty map, `index = 1`, no records. -/
def VoxState.init : VoxState := ⟨[], 1, []⟩

/-- The voxel walk of `ArrayVoxelBuffer::<Rgba>::save` (voxel_buffer.rs):
nested `z/y/x` loops reading `self.voxel(x, y, z)`. -/
def ArrayVoxelBuffer.scan (b : ArrayVoxelBuffer) : VoxState :=
  (nestedCoords b.size_x b.size_y b.size_z).foldl
    (fun s c => processVoxel s c.1 c.2.1 c.2.2
      (b.vox (linearId b.size_x b.size_y c.1 c.2.1 c.2.2)))
    VoxState.init

/-- The voxel walk of `VolumeBuffer::<Rgba>::save` (buffer.rs): the
`enumerate_voxels` iterator. -/
def VolumeBuffer.scan (b : VolumeBuffer) : VoxState :=
  b.enumerate_voxels.foldl
    (fun s it => processVoxel s it.1.1 it.1.2.1 it.1.2.2 it.2)
    VoxState.init

/-- The canonical form both walks reduce to: the per-voxel body applied to
linear indices `0, 1, ...` in ascending order. -/
def scanOf (w d h : Nat) (vox : Nat → Rgba) : VoxState :=
  (List.range (w * d * h)).foldl
    (fun s n => processVoxel s (coordOf w d n).1 (coordOf w d n).2.1 (coordOf w d n).2.2
      (vox n))
    VoxState.init

theorem arrayScan_eq_scanOf (w d h : Nat) (vox : Nat → Rgba) :
    ArrayVoxelBuffer.scan ⟨w, d, h, vox⟩ = scanOf w d h vox := by
  unfold ArrayVoxelBuffer.scan scanOf
  rw [nestedCoords_eq, List.foldl_map]
  have hf : (fun (s : VoxState) n => processVoxel s (coordOf w d n).1 (coordOf w d n).2.1
        (coordOf w d n).2.2
        (vox (linearId w d (coordOf w d n).1 (coordOf w d n).2.1 (coordOf w d n).2.2))) =
      fun (s : VoxState) n => processVoxel s (coordOf w d n).1 (coordOf w d n).2.1
        (coordOf w d n).2.2 (vox n) := by
    funext s n
    rw [linearId_coordOf]
  rw [hf]

theorem volumeScan_eq_scanOf (w d h : Nat) (vox : Nat → Rgba) :
    VolumeBuffer.scan ⟨w, d, h, vox⟩ = scanOf w d h vox := by
  unfold VolumeBuffer.scan scanOf
  rw [enumerate_voxels_eq, List.foldl_map]

/-- Little-endian `u32::to_le_bytes`. -/
def le32 (n : Nat) : List Nat :=
  [n % 256, n / 256 % 256, n / 65536 % 256, n / 16777216 % 256]

/-- The value of the `xyzi_chunk_size` variable of `save`
(`INT_SIZE + voxel_count * INT_SIZE` in wrapping `u32` arithmetic, where
`voxel_count = xyzis.len() as u32`). -/
def xyziChunkSizeVal (n : Nat) : Nat := (4 + n % 2 ^ 32 * 4) % 2 ^ 32

/-- The value of the `main_child_chunks_size` variable of `save`. -/
def mainChildrenSizeVal (n : Nat) : Nat :=
  (12 * 3 + 12 + xyziChunkSizeVal n + 1024) % 2 ^ 32

/-- The `for (rgba, i) in color_indices { palette[i as usize - 1] = rgba.0 }`
loop of `save`, over the fixed 256-entry palette array.  `i = 0` underflows
`usize` and the resulting index panics (modelled as `none`). -/
def buildPalette (ci : List (Rgba × Nat)) : Option (List Rgba) :=
  ci.foldlM
    (fun pal p =>
      if p.2 = 0 then none
      else if p.2 - 1 < 256 then some (pal.set (p.2 - 1) p.1) else none)
    (List.replicate 256 Rgba.zero)

/-- Payload of the SIZE chunk: the three `u32` dimensions. -/
def sizePayload (w d h : Nat) : List Nat := le32 w ++ le32 d ++ le32 h

/-- Payload of the XYZI chunk: `u32` count then the 4-byte records. -/
def xyziPayload (xyzis : List (List Nat)) : List Nat :=
  le32 (xyzis.length % 2 ^ 32) ++ xyzis.flatten

/-- Payload of the RGBA chunk: the flattened 256-entry palette. -/
def rgbaPayload (pal : List Rgba) : List Nat := (pal.map Rgba.toBytes).flatten

/-- A chunk: 4-byte id, `u32` content size, `u32` children size, payload. -/
def chunk (ident : List Nat) (contentSize childrenSize : Nat) (payload : List Nat) :
    List Nat :=
  ident ++ le32 contentSize ++ le32 childrenSize ++ payload

/-- The byte assembly of `save` (the part after the voxel walk, identical
source text in buffer.rs and voxel_buffer.rs): "VOX " signature, version
150, MAIN chunk with SIZE, XYZI and RGBA children.  `none` when the
palette fill loop panics. -/
def vox_file_bytes (w d h : Nat) (scan : VoxState) : Option (List Nat) :=
  match buildPalette scan.colorIndices with
  | none => none
  | some pal =>
    some ([86, 79, 88, 32] ++ le32 150 ++
      chunk [77, 65, 73, 78] 0 (mainChildrenSizeVal scan.xyzis.length)
        (chunk [83, 73, 90, 69] 12 0 (sizePayload w d h) ++
         chunk [88, 89, 90, 73] (xyziChunkSizeVal scan.xyzis.length) 0
           (xyziPayload scan.xyzis) ++
         chunk [82, 71, 66, 65] 1024 0 (rgbaPayload pal)))

/-- `ArrayVoxelBuffer::<Rgba>::save` (voxel_buffer.rs), as the byte string
written to the file. -/
def ArrayVoxelBuffer.save (b : ArrayVoxelBuffer) : Option (List Nat) :=
  vox_file_bytes b.size_x b.size_y b.size_z b.scan

/-- `VolumeBuffer::<Rgba>::save` (buffer.rs), as the byte string written
to the file. -/
def VolumeBuffer.save (b : VolumeBuffer) : Option (List Nat) :=
  vox_file_bytes b.width b.depth b.height b.scan

/-- The per-index step of the canonical walk. -/
def stepF (w d : Nat) (vox : Nat → Rgba) (s : VoxState) (n : Nat) : VoxState :=
  processVoxel s (coordOf w d n).1 (coordOf w d n).2.1 (coordOf w d n).2.2 (vox n)

theorem scanOf_def (w d h : Nat) (vox : Nat → Rgba) :
    scanOf w d h vox = (List.range (w * d * h)).foldl (stepF w d vox) VoxState.init := rfl

/-- The record pushed for linear index `n` with palette slot `j`. -/
def recOf (w d n j : Nat) : List Nat :=
  [(coordOf w d n).1 % 256, (coordOf w d n).2.1 % 256, (coordOf w d n).2.2 % 256, j]

theorem lookupColor_append (m1 m2 : List (Rgba × Nat)) (r : Rgba) :
    lookupColor (m1 ++ m2) r =
      match lookupColor m1 r with
      | some i => some i
      | none => lookupColor m2 r := by
  induction m1 with
  | nil => simp [lookupColor]
  | cons p m ih =>
    obtain ⟨c, i⟩ := p
    by_cases h : c = r
    · simp [lookupColor, h]
    · have h1 : lookupColor ((c, i) :: (m ++ m2)) r = lookupColor (m ++ m2) r := by
        simp [lookupColor, h]
      have h2 : lookupColor ((c, i) :: m) r = lookupColor m r := by
        simp [lookupColor, h]
      show lookupColor ((c, i) :: (m ++ m2)) r = _
      rw [h1, h2, ih]

theorem processVoxel_hit_skip (s : VoxState) (x y z : Nat) (r : Rgba) (j : Nat)
    (hl : lookupColor s.colorIndices r = some j) (ha : r.a = 0) :
    processVoxel s x y z r = s := by
  simp [processVoxel, hl, ha]

theorem processVoxel_hit_push (s : VoxState) (x y z : Nat) (r : Rgba) (j : Nat)
    (hl : lookupColor s.colorIndices r = some j) (ha : 0 < r.a) :
    processVoxel s x y z r =
      { s with xyzis := s.xyzis ++ [[x % 256, y % 256, z % 256, j]] } := by
  simp [processVoxel, hl, ha]

theorem processVoxel_miss_skip (s : VoxState) (x y z : Nat) (r : Rgba)
    (hl : lookupColor s.colorIndices r = none) (ha : r.a = 0) :
    processVoxel s x y z r =
      ⟨s.colorIndices ++ [(r, s.index)], (s.index + 1) % 256, s.xyzis⟩ := by
  simp [processVoxel, hl, ha]

theorem processVoxel_miss_push (s : VoxState) (x y z : Nat) (r : Rgba)
    (hl : lookupColor s.colorIndices r = none) (ha : 0 < r.a) :
    processVoxel s x y z r =
      ⟨s.colorIndices ++ [(r, s.index)], (s.index + 1) % 256,
        s.xyzis ++ [[x % 256, y % 256, z % 256, s.index]]⟩ := by
  simp [processVoxel, hl, ha]

/-- Folding over indices whose voxels all carry an already-mapped fully
transparent value leaves the walk state unchanged. -/
theorem foldl_trans_skip (w d : Nat) (vox : Nat → Rgba) (t : Rgba) (j : Nat)
    (ht : t.a = 0) :
    ∀ (l : List Nat) (s : VoxState), (∀ i ∈ l, vox i = t) →
      lookupColor s.colorIndices t = some j →
      l.foldl (stepF w d vox) s = s := by
  intro l
  induction l with
  | nil => intro s _ _; rfl
  | cons i l ih =>
    intro s hall hl
    have hv : vox i = t := hall i (List.mem_cons_self i l)
    show List.foldl _ (stepF w d vox s i) l = s
    have hs : stepF w d vox s i = s := by
      unfold stepF
      rw [hv]
      exact processVoxel_hit_skip s _ _ _ t j hl ht
    rw [hs]
    exact ih s (fun i hi => hall i (List.mem_cons_of_mem _ hi)) hl

/-- Folding over indices whose voxels all carry an already-mapped opaque
value appends one record per index, in walk order, and changes nothing
else. -/
theorem foldl_const_push (w d : Nat) (vox : Nat → Rgba) (c : Rgba) (j : Nat)
    (hc : 0 < c.a) :
    ∀ (l : List Nat) (s : VoxState), (∀ i ∈ l, vox i = c) →
      lookupColor s.colorIndices c = some j →
      l.foldl (stepF w d vox) s =
        { s with xyzis := s.xyzis ++ l.map (fun i => recOf w d i j) } := by
  intro l
  induction l with
  | nil => intro s _ _; simp
  | cons i l ih =>
    intro s hall hl
    have hv : vox i = c := hall i (List.mem_cons_self i l)
    show List.foldl _ (stepF w d vox s i) l = _
    have hs : stepF w d vox s i =
        { s with xyzis := s.xyzis ++ [recOf w d i j] } := by
      unfold stepF
      rw [hv]
      exact processVoxel_hit_push s _ _ _ c j hl hc
    rw [hs]
    rw [ih ⟨s.colorIndices, s.index, s.xyzis ++ [recOf w d i j]⟩
        (fun i hi => hall i (List.mem_cons_of_mem _ hi)) hl]
    simp

theorem Rgba.zero_a : Rgba.zero.a = 0 := rfl

/-- The full walk of a buffer holding exactly one voxel with positive alpha
(at linear index `k`) and `Rgba.zero` everywhere else: the single record
gets palette slot 1 when the opaque voxel is the first voxel walked and
slot 2 otherwise, because the transparent value also claims a slot. -/
theorem single_voxel_scan (w d h k : Nat) (color : Rgba) (hk : k < w * d * h)
    (ha : 0 < color.a) :
    (scanOf w d h fun n => if n = k then color else Rgba.zero).xyzis =
        [recOf w d k (if k = 0 then 1 else 2)] ∧
    (scanOf w d h fun n => if n = k then color else Rgba.zero).colorIndices =
        if k = 0 then
          (if w * d * h = 1 then [(color, 1)] else [(color, 1), (Rgba.zero, 2)])
        else [(Rgba.zero, 1), (color, 2)] := by
  have hcz : color ≠ Rgba.zero := by
    intro hcc
    rw [hcc] at ha
    simp [Rgba.zero] at ha
  set vox : Nat → Rgba := fun n => if n = k then color else Rgba.zero with hvox
  have hvk : vox k = color := by simp [hvox]
  have hvo : ∀ i, i ≠ k → vox i = Rgba.zero := by
    intro i hi
    simp [hvox, hi]
  rcases Nat.eq_zero_or_pos k with hk0 | hkpos
  · -- the opaque voxel is the first voxel walked
    subst hk0
    obtain ⟨m, hm⟩ : ∃ m, w * d * h = m + 1 := ⟨w * d * h - 1, by omega⟩
    rw [scanOf_def, hm, List.range_eq_range', List.range'_succ, List.foldl_cons]
    have h0 : stepF w d vox VoxState.init 0 = ⟨[(color, 1)], 2, [recOf w d 0 1]⟩ := by
      simp [stepF, hvk, processVoxel, lookupColor, VoxState.init, ha, recOf]
    rw [h0]
    cases m with
    | zero =>
      simp [hm]
    | succ m2 =>
      rw [List.range'_succ, List.foldl_cons]
      have h1 : stepF w d vox ⟨[(color, 1)], 2, [recOf w d 0 1]⟩ 1 =
          ⟨[(color, 1), (Rgba.zero, 2)], 3, [recOf w d 0 1]⟩ := by
        have hv1 : vox 1 = Rgba.zero := hvo 1 (by omega)
        simp [stepF, hv1, processVoxel, lookupColor, hcz, Rgba.zero_a]
      rw [h1]
      rw [foldl_trans_skip w d vox Rgba.zero 2 rfl _ _
        (fun i hi => hvo i (by rw [List.mem_range'_1] at hi; omega))
        (by simp [lookupColor, hcz])]
      simp [hm]
  · -- transparent voxels come first and claim palette slot 1
    have hsplit : List.range' 0 k ++ List.range' k (w * d * h - k) =
        List.range' 0 (w * d * h) := by
      have hr := List.range'_append 0 k (w * d * h - k) 1
      rw [one_mul, Nat.zero_add] at hr
      have he : w * d * h - k + k = w * d * h := by omega
      rw [he] at hr
      exact hr
    rw [scanOf_def, List.range_eq_range', ← hsplit, List.foldl_append]
    obtain ⟨j, hj⟩ : ∃ j, k = j + 1 := ⟨k - 1, by omega⟩
    obtain ⟨m, hm⟩ : ∃ m, w * d * h - k = m + 1 := ⟨w * d * h - k - 1, by omega⟩
    have hfirst : List.foldl (stepF w d vox) VoxState.init (List.range' 0 k) =
        ⟨[(Rgba.zero, 1)], 2, []⟩ := by
      rw [hj, List.range'_succ, List.foldl_cons]
      have h0 : stepF w d vox VoxState.init 0 = ⟨[(Rgba.zero, 1)], 2, []⟩ := by
        have hv0 : vox 0 = Rgba.zero := hvo 0 (by omega)
        simp [stepF, hv0, processVoxel, lookupColor, VoxState.init, Rgba.zero_a]
      rw [h0]
      exact foldl_trans_skip w d vox Rgba.zero 1 rfl _ _
        (fun i hi => hvo i (by rw [List.mem_range'_1] at hi; omega))
        (by simp [lookupColor])
    rw [hfirst, hm, List.range'_succ, List.foldl_cons]
    have hstepk : stepF w d vox ⟨[(Rgba.zero, 1)], 2, []⟩ k =
        ⟨[(Rgba.zero, 1), (color, 2)], 3, [recOf w d k 2]⟩ := by
      simp [stepF, hvk, processVoxel, lookupColor, Ne.symm hcz, ha, recOf]
    rw [hstepk]
    rw [foldl_trans_skip w d vox Rgba.zero 1 rfl _ _
      (fun i hi => hvo i (by rw [List.mem_range'_1] at hi; omega))
      (by simp [lookupColor, Ne.symm hcz])]
    have hkne : ¬ k = 0 := by omega
    simp [hkne]

/-- The full walk of a buffer whose every voxel holds the same opaque
value: one record per voxel, all with palette slot 1. -/
theorem const_color_scan (w d h : Nat) (c : Rgba) (hc : 0 < c.a)
    (hN : 0 < w * d * h) :
    scanOf w d h (fun _ => c) =
      ⟨[(c, 1)], 2, (List.range (w * d * h)).map (fun i => recOf w d i 1)⟩ := by
  obtain ⟨m, hm⟩ : ∃ m, w * d * h = m + 1 := ⟨w * d * h - 1, by omega⟩
  rw [scanOf_def, hm, List.range_eq_range', List.range'_succ, List.foldl_cons]
  have h0 : stepF w d (fun _ => c) VoxState.init 0 = ⟨[(c, 1)], 2, [recOf w d 0 1]⟩ := by
    simp [stepF, processVoxel, lookupColor, VoxState.init, hc, recOf]
  rw [h0]
  rw [foldl_const_push w d (fun _ => c) c 1 hc _ _ (fun _ _ => rfl)
    (by simp [lookupColor])]
  simp

/-- A record present after one per-voxel step was present before or is a
fresh 4-byte record. -/
theorem processVoxel_records (s : VoxState) (x y z : Nat) (r0 : Rgba) :
    ∀ r ∈ (processVoxel s x y z r0).xyzis, r ∈ s.xyzis ∨ r.length = 4 := by
  intro r hr
  rcases hl : lookupColor s.colorIndices r0 with _ | j
  · by_cases hv : r0.a > 0
    · simp only [processVoxel, hl, hv, if_true, List.mem_append,
        List.mem_singleton] at hr
      rcases hr with hr | hr
      · exact Or.inl hr
      · right
        rw [hr]
        rfl
    · simp only [processVoxel, hl, hv, if_false] at hr
      exact Or.inl hr
  · by_cases hv : r0.a > 0
    · simp only [processVoxel, hl, hv, if_true, List.mem_append,
        List.mem_singleton] at hr
      rcases hr with hr | hr
      · exact Or.inl hr
      · right
        rw [hr]
        rfl
    · simp only [processVoxel, hl, hv, if_false] at hr
      exact Or.inl hr

/-- Every record collected by the walk is 4 bytes long. -/
theorem scan_records_length (w d : Nat) (vox : Nat → Rgba) :
    ∀ (l : List Nat) (s : VoxState), (∀ r ∈ s.xyzis, r.length = 4) →
      ∀ r ∈ (l.foldl (stepF w d vox) s).xyzis, r.length = 4 := by
  intro l
  induction l with
  | nil => intro s hs; exact hs
  | cons i l ih =>
    intro s hs
    rw [List.foldl_cons]
    refine ih _ ?_
    intro r hr
    rcases processVoxel_records s _ _ _ (vox i) r hr with hr2 | hr2
    · exact hs r hr2
    · exact hr2

theorem scanOf_records_length (w d h : Nat) (vox : Nat → Rgba) :
    ∀ r ∈ (scanOf w d h vox).xyzis, r.length = 4 := by
  rw [scanOf_def]
  exact scan_records_length w d vox _ VoxState.init (by simp [VoxState.init])

/-- Flattening a list of 4-byte records yields `4 * count` bytes. -/
theorem flatten_length_four (l : List (List Nat)) (hl : ∀ r ∈ l, r.length = 4) :
    l.flatten.length = 4 * l.length := by
  induction l with
  | nil => rfl
  | cons r l ih =>
    rw [List.flatten_cons, List.length_append, hl r (List.mem_cons_self r l),
      ih (fun r hr => hl r (List.mem_cons_of_mem _ hr))]
    simp [List.length_cons]
    ring

/-- `buildPalette` preserves the 256-entry length. -/
theorem buildPalette_length (ci : List (Rgba × Nat)) (pal : List Rgba)
    (h : buildPalette ci = some pal) : pal.length = 256 := by
  have aux : ∀ (ci : List (Rgba × Nat)) (p0 : List Rgba), p0.length = 256 →
      ∀ pal, (ci.foldlM
        (fun pal p =>
          if p.2 = 0 then none
          else if p.2 - 1 < 256 then some (pal.set (p.2 - 1) p.1) else none)
        p0) = some pal → pal.length = 256 := by
    intro ci
    induction ci with
    | nil =>
      intro p0 h0 pal hp
      rw [List.foldlM_nil] at hp
      cases hp
      exact h0
    | cons p ci ih =>
      intro p0 h0 pal hp
      rw [List.foldlM_cons] at hp
      by_cases hz : p.2 = 0
      · simp [hz] at hp
      · by_cases hlt : p.2 - 1 < 256
        · simp only [hz, if_false, hlt, if_true, Option.some_bind] at hp
          exact ih (p0.set (p.2 - 1) p.1) (by rw [List.length_set]; exact h0) pal hp
        · simp [hz, hlt] at hp
  exact aux ci (List.replicate 256 Rgba.zero) (List.length_replicate 256 Rgba.zero) pal h

theorem buildPalette_one (c : Rgba) :
    buildPalette [(c, 1)] = some ((List.replicate 256 Rgba.zero).set 0 c) := rfl

theorem buildPalette_two (c1 c2 : Rgba) :
    buildPalette [(c1, 1), (c2, 2)] =
      some (((List.replicate 256 Rgba.zero).set 0 c1).set 1 c2) := rfl

/-! ## Turtle graphics (turtle.rs)

The turtle keeps an integer position and an `f32` heading; `step` moves by
`(step_size * heading.cos()) as i32` in `x` and likewise with `sin` in `y`.
The `f32` arithmetic is modelled over `ℝ` (`Real.cos`, `Real.sin`), and the
`as i32` cast (truncation toward zero) is `rtrunc`.  The `as u32` cast of
the rasterized `i32` point coordinates wraps modulo `2 ^ 32`
(`u32ofInt`). -/

/-- `as i32` on a real value: truncation toward zero. -/
noncomputable def rtrunc (r : ℝ) : ℤ := if 0 ≤ r then ⌊r⌋ else ⌈r⌉

/-- `as u32` on an `i32` value: wrap modulo `2 ^ 32`. -/
def u32ofInt (i : ℤ) : Nat := (i % (2 ^ 32 : ℤ)).toNat

/-- The `Turtle` state struct of turtle.rs. -/
structure Turtle where
  x : ℤ
  y : ℤ
  heading : ℝ

/-- `TurtleGraphics` of turtle.rs: a drawing buffer plus the turtle state. -/
structure TurtleGraphics where
  buf : ArrayVoxelBuffer
  state : Turtle

/-- `TurtleGraphics::new`: empty buffer, turtle at the origin heading 0. -/
def TurtleGraphics.new (sx sy sz : Nat) : TurtleGraphics :=
  ⟨⟨sx, sy, sz, fun _ => Rgba.zero⟩, ⟨0, 0, 0⟩⟩

/-- `TurtleGraphics::step`. -/
noncomputable def TurtleGraphics.step (t : TurtleGraphics) (s : ℝ) : TurtleGraphics :=
  { t with state :=
    { t.state with
      x := t.state.x + rtrunc (s * Real.cos t.state.heading)
      y := t.state.y + rtrunc (s * Real.sin t.state.heading) } }

/-- `TurtleGraphics::left`: add to the heading. -/
def TurtleGraphics.left (t : TurtleGraphics) (a : ℝ) : TurtleGraphics :=
  { t with state := { t.state with heading := t.state.heading + a } }

/-- `TurtleGraphics::right`: subtract from the heading. -/
def TurtleGraphics.right (t : TurtleGraphics) (a : ℝ) : TurtleGraphics :=
  { t with state := { t.state with heading := t.state.heading - a } }

/-! Modelled from the spec: the integer line rasterizer is the external
`line_drawing` crate's `Bresenham` iterator, which is a dependency, not
code of this repository.  Per the spec it "rasterizes every integer
lattice point on the straight line from old to new position (inclusive)
using an integer line-rasterization algorithm (Bresenham)"; the model
below follows the crate's octant-based integer algorithm: classify the
octant, transform both endpoints into octant 0 (`0 ≤ dy ≤ dx`), walk `x`
from start to end inclusive stepping `y` by the accumulated error, and
transform each point back. -/

/-- Octant classification of the segment (the crate's `Octant::new`). -/
def octantOf (s e : ℤ × ℤ) : Nat :=
  let dx := e.1 - s.1
  let dy := e.2 - s.2
  let p1 : ℤ × ℤ × Nat := if dy < 0 then (-dx, -dy, 4) else (dx, dy, 0)
  let p2 : ℤ × ℤ × Nat :=
    if p1.1 < 0 then (p1.2.1, -p1.1, p1.2.2 + 2) else p1
  if p2.1 < p2.2.1 then p2.2.2 + 1 else p2.2.2

/-- Transform a point into octant 0 (the crate's `Octant::to_octant0`). -/
def toOctant0 (o : Nat) (p : ℤ × ℤ) : ℤ × ℤ :=
  match o with
  | 0 => (p.1, p.2)
  | 1 => (p.2, p.1)
  | 2 => (p.2, -p.1)
  | 3 => (-p.1, p.2)
  | 4 => (-p.1, -p.2)
  | 5 => (-p.2, -p.1)
  | 6 => (-p.2, p.1)
  | _ => (p.1, -p.2)

/-- Transform a point back from octant 0 (the crate's `Octant::from_octant0`). -/
def fromOctant0 (o : Nat) (p : ℤ × ℤ) : ℤ × ℤ :=
  match o with
  | 0 => (p.1, p.2)
  | 1 => (p.2, p.1)
  | 2 => (-p.2, p.1)
  | 3 => (-p.1, p.2)
  | 4 => (-p.1, -p.2)
  | 5 => (-p.2, -p.1)
  | 6 => (p.2, -p.1)
  | _ => (p.1, -p.2)

/-- The octant-0 walk: yield `(x, y)` while `x ≤ endX`, stepping the error
term; the fuel is the exact iteration count of the crate's loop. -/
def bresLoop (o : Nat) (dx dy endX : ℤ) : Nat → ℤ → ℤ → ℤ → List (ℤ × ℤ)
  | 0, _, _, _ => []
  | fuel + 1, x, y, err =>
    if x ≤ endX then
      fromOctant0 o (x, y) ::
        (if 0 ≤ err then bresLoop o dx dy endX fuel (x + 1) (y + 1) (err - dx + dy)
         else bresLoop o dx dy endX fuel (x + 1) y (err + dy))
    else []

/-- The rasterized points of the segment from `s` to `e`, inclusive. -/
def bresenham (s e : ℤ × ℤ) : List (ℤ × ℤ) :=
  let o := octantOf s e
  let s0 := toOctant0 o s
  let e0 := toOctant0 o e
  let dx := e0.1 - s0.1
  let dy := e0.2 - s0.2
  bresLoop o dx dy e0.1 (dx.toNat + 1) s0.1 s0.2 (dy - dx)

/-- Write the voxel at a rasterized point: `*self.buf.voxel_mut(x as u32,
y as u32, 0) = color`, with the `as u32` wrap and the bounds-check panic. -/
def voxelSetI (b : ArrayVoxelBuffer) (p : ℤ × ℤ) (c : Rgba) : Option ArrayVoxelBuffer :=
  b.voxel_set (u32ofInt p.1) (u32ofInt p.2) 0 c

/-- `TurtleGraphics::draw`: move, then write the default color
`Rgba([0, 0, 0, 255])` at every rasterized point of the travelled segment. -/
noncomputable def TurtleGraphics.draw (t : TurtleGraphics) (s : ℝ) :
    Option TurtleGraphics :=
  let t2 := t.step s
  ((bresenham (t.state.x, t.state.y) (t2.state.x, t2.state.y)).foldlM
      (fun b p => voxelSetI b p ⟨0, 0, 0, 255⟩) t.buf).map
    fun b => ⟨b, t2.state⟩

/-- The `for (i, (x, y)) in points.enumerate()` loop of
`TurtleGraphics::draw_gradient`: for each point, first index the gradient
slice (`gradient[i]`, a panic when `i` is out of range — Rust evaluates the
right-hand side of the assignment first), then write the voxel. -/
def drawGradLoop (g : List Rgba) : Nat → ArrayVoxelBuffer → List (ℤ × ℤ) →
    Option ArrayVoxelBuffer
  | _, b, [] => some b
  | i, b, p :: ps =>
    match g[i]? with
    | none => none
    | some c =>
      match voxelSetI b p c with
      | none => none
      | some b2 => drawGradLoop g (i + 1) b2 ps

/-- `TurtleGraphics::draw_gradient`. -/
noncomputable def TurtleGraphics.draw_gradient (t : TurtleGraphics) (s : ℝ)
    (gradient : List Rgba) : Option TurtleGraphics :=
  let t2 := t.step s
  (drawGradLoop gradient 0 t.buf
      (bresenham (t.state.x, t.state.y) (t2.state.x, t2.state.y))).map
    fun b => ⟨b, t2.state⟩

/-- Written to the spec's words, for comparison with `draw_gradient`:
"`draw_gradient` consumes exactly one color per rasterized point in
emission order" — apply the point/color pairs as writes, in order. -/
def applyWrites (b : ArrayVoxelBuffer) (ws : List ((ℤ × ℤ) × Rgba)) :
    Option ArrayVoxelBuffer :=
  ws.foldlM (fun b pc => voxelSetI b pc.1 pc.2) b

/-! ## The L-system engine (l_system.rs)

`parse_sentence` is nom's `many0` over single-character tags: it consumes
the longest prefix of recognized symbol characters and never fails — the
unconsumed remainder is returned.  `LSystem::new` unwraps the parse of the
axiom (keeping only the parsed prefix) and of each rule
(`separated_pair(parse_sentence, tag("→"), parse_sentence)`, whose own
remainder is discarded); the rule's key is `pair.1.0[0]`, a panic on an
empty left side.  Input strings are modelled as `List Char` (the arrow,
a multi-byte UTF-8 sequence in Rust, is one `Char`). -/

/-- The turtle-command alphabet `Command` of l_system.rs. -/
inductive Command where
  | Draw
  | Step
  | Left
  | Right
  | DrawLeft
  | DrawRight
  | SubfigureA
  | SubfigureB
deriving DecidableEq, Repr

/-- The single-character tags of `parse_sentence`'s `alt`. -/
def charCommand (c : Char) : Option Command :=
  if c = 'F' then some Command.Draw
  else if c = 'f' then some Command.Step
  else if c = '+' then some Command.Left
  else if c = '-' then some Command.Right
  else if c = 'L' then some Command.DrawLeft
  else if c = 'R' then some Command.DrawRight
  else if c = 'A' then some Command.SubfigureA
  else if c = 'B' then some Command.SubfigureB
  else none

/-- `parse_sentence`: consume recognized characters greedily; return
(remaining input, parsed commands).  `many0` never fails. -/
def parse_sentence : List Char → List Char × List Command
  | [] => ([], [])
  | c :: rest =>
    match charCommand c with
    | none => (c :: rest, [])
    | some cmd =>
      let p := parse_sentence rest
      (p.1, cmd :: p.2)

/-- `HashMap::insert` on the production map's association list: replace an
existing binding, else append. -/
def insertProd : List (Command × List Command) → Command → List Command →
    List (Command × List Command)
  | [], k, v => [(k, v)]
  | (k0, v0) :: rest, k, v =>
    if k0 = k then (k0, v) :: rest else (k0, v0) :: insertProd rest k v

/-- One rule of `parse_productions`: parse the left side, require the
arrow right after it (`tag("→")`, an `Err` otherwise, propagated at once
by `?`), parse the right side (whatever remains after it is discarded),
and key by the first left-side symbol (`pair.1.0[0]`, a panic on an empty
left side).  `none` models both the `Err` and the panic. -/
def ruleStep (rule : List Char) : Option (Command × List Command) :=
  match (parse_sentence rule).1 with
  | '→' :: r2 =>
    match (parse_sentence rule).2 with
    | [] => none
    | k :: _ => some (k, (parse_sentence r2).2)
  | _ => none

/-- The `for rule in rules` loop of `parse_productions` with the map built
so far: a failing rule aborts at once (`?` / panic), a successful one is
inserted. -/
def parseProdLoop : List (List Char) → List (Command × List Command) →
    Option (List (Command × List Command))
  | [], acc => some acc
  | rule :: rest, acc =>
    match ruleStep rule with
    | none => none
    | some (k, v) => parseProdLoop rest (insertProd acc k v)

/-- `parse_productions`: run the rule loop from the empty map. -/
def parse_productions (rules : List (List Char)) :
    Option (List (Command × List Command)) :=
  parseProdLoop rules []

/-- The `LSystem` struct of l_system.rs (`start` is its axiom field). -/
structure LSystem where
  name : String
  start : List Command
  productions : List (Command × List Command)
deriving DecidableEq, Repr

/-- `HashMap::get` on the production map. -/
def lookupProd : List (Command × List Command) → Command → Option (List Command)
  | [], _ => none
  | (k, v) :: rest, c => if k = c then some v else lookupProd rest c

/-- `LSystem::new`: `parse_sentence(axiom).unwrap().1` (which never fails —
the unparsed remainder of the axiom is silently dropped) and
`parse_productions(productions).unwrap().1` (whose failure aborts,
modelled as `none`). -/
def LSystem.new (name : String) (ax : List Char) (productions : List (List Char)) :
    Option LSystem :=
  match parse_productions productions with
  | none => none
  | some m => some ⟨name, (parse_sentence ax).2, m⟩

/-- `LSystem::derive`: for `n = 0` the sentence unchanged; otherwise
replace every symbol by its production (itself when absent) and recurse. -/
def LSystem.derive (L : LSystem) (sentence : List Command) : Nat → List Command
  | 0 => sentence
  | n + 1 =>
    LSystem.derive L
      (sentence.flatMap fun c =>
        match lookupProd L.productions c with
        | some r => r
        | none => [c])
      n


/-! ## Claim theorems -/

/-- C4: for every grammar and symbol sequence, `derive(seq, 0)` returns the
sequence unchanged, and `derive(seq, a + b) = derive(derive(seq, a), b)` for
all generation counts; `derive` is a pure function of its arguments. -/
theorem C4_derive_identity_and_compose (L : LSystem) (s : List Command) (a b : Nat) :
    L.derive s 0 = s ∧ L.derive s (a + b) = L.derive (L.derive s a) b := by
  constructor
  · rfl
  · induction a generalizing s with
    | zero =>
      rw [Nat.zero_add]
      rfl
    | succ n ih =>
      rw [Nat.succ_add]
      have h1 : L.derive s (n + b + 1) =
          L.derive (s.flatMap fun c =>
            match lookupProd L.productions c with
            | some r => r
            | none => [c]) (n + b) := rfl
      have h2 : L.derive s (n + 1) =
          L.derive (s.flatMap fun c =>
            match lookupProd L.productions c with
            | some r => r
            | none => [c]) n := rfl
      rw [h1, h2, ih]

/-- C5: for every in-bounds coordinate, `id` yields exactly
`x + y*width + z*width*depth` and `coordinate` inverts it. -/
theorem C5_id_coordinate_roundtrip (w d h x y z : Nat) (vox : Nat → Rgba)
    (hx : x < w) (hy : y < d) (hz : z < h) :
    VolumeBuffer.id ⟨w, d, h, vox⟩ x y z = some (x + y * w + z * (w * d)) ∧
    VolumeBuffer.coordinate ⟨w, d, h, vox⟩ (x + y * w + z * (w * d)) =
      some (x, y, z) := by
  constructor
  · unfold VolumeBuffer.id
    rw [if_neg (by push_neg; exact ⟨hx, hy, hz⟩)]
    rfl
  · unfold VolumeBuffer.coordinate
    dsimp only
    have hlt := linearId_lt w d h x y z hx hy hz
    unfold linearId at hlt
    rw [if_neg (by omega)]
    have : x + y * w + z * (w * d) = linearId w d x y z := rfl
    rw [this, coordOf_linearId w d x y z hx hy]

theorem C5_witness :
    VolumeBuffer.id ⟨3, 4, 5, fun _ => Rgba.zero⟩ 2 3 4 = some 59 ∧
    VolumeBuffer.coordinate ⟨3, 4, 5, fun _ => Rgba.zero⟩ 59 = some (2, 3, 4) := by
  have h := C5_id_coordinate_roundtrip 3 4 5 2 3 4 (fun _ => Rgba.zero)
    (by decide) (by decide) (by decide)
  norm_num at h
  exact h

/-- C6: the enumeration yields exactly `width*depth*height` items and the
`n`-th item carries the coordinate with linear index `n` (so `x` varies
fastest, then `y`, then `z`, each index exactly once, ascending). -/
theorem C6_enumeration_order (w d h : Nat) (vox : Nat → Rgba) (n : Nat)
    (hn : n < w * d * h) :
    (VolumeBuffer.enumerate_voxels ⟨w, d, h, vox⟩).length = w * d * h ∧
    ∃ x y z, (VolumeBuffer.enumerate_voxels ⟨w, d, h, vox⟩)[n]? =
        some ((x, y, z), vox n) ∧
      x + y * w + z * (w * d) = n ∧ x < w ∧ y < d ∧ z < h := by
  have hw : 0 < w := by
    rcases Nat.eq_zero_or_pos w with h0 | h0
    · simp [h0] at hn
    · exact h0
  have hd : 0 < d := by
    rcases Nat.eq_zero_or_pos d with h0 | h0
    · simp [h0] at hn
    · exact h0
  have he := enumerate_voxels_eq w d h vox
  constructor
  · rw [he]
    simp
  · refine ⟨(coordOf w d n).1, (coordOf w d n).2.1, (coordOf w d n).2.2, ?_, ?_, ?_⟩
    · rw [he, List.getElem?_map, List.getElem?_range hn]
      rfl
    · exact linearId_coordOf w d n
    · obtain ⟨h1, h2, h3⟩ := coordOf_lt w d h n hw hd hn
      exact ⟨h1, h2, h3⟩

theorem C6_witness :
    (VolumeBuffer.enumerate_voxels ⟨2, 3, 2, fun _ => Rgba.zero⟩).length = 2 * 3 * 2 ∧
    ∃ x y z, (VolumeBuffer.enumerate_voxels ⟨2, 3, 2, fun _ => Rgba.zero⟩)[7]? =
        some ((x, y, z), (fun _ => Rgba.zero) 7) ∧
      x + y * 2 + z * (2 * 3) = 7 ∧ x < 2 ∧ y < 3 ∧ z < 2 :=
  C6_enumeration_order 2 3 2 (fun _ => Rgba.zero) 7 (by decide)

/-- C9: the two encoder implementations produce identical byte output for
buffers with equal dimensions and equal voxel contents. -/
theorem C9_save_equivalence (w d h : Nat) (vox : Nat → Rgba) :
    VolumeBuffer.save ⟨w, d, h, vox⟩ = ArrayVoxelBuffer.save ⟨w, d, h, vox⟩ := by
  unfold VolumeBuffer.save ArrayVoxelBuffer.save
  rw [volumeScan_eq_scanOf, arrayScan_eq_scanOf]

set_option maxRecDepth 8192 in
/-- C1 (amended): for a buffer with exactly one voxel of non-zero alpha,
the XYZI record list has exactly one entry, and the palette has exactly one
non-zero entry — at slot 1 when the opaque voxel is at linear index 0, at
slot 2 otherwise, because the transparent value claims a palette slot
too (the slot assignment is not gated on alpha). -/
theorem C1_single_voxel_palette (w d h k : Nat) (color : Rgba)
    (hk : k < w * d * h) (ha : 0 < color.a) :
    (ArrayVoxelBuffer.scan ⟨w, d, h, fun n => if n = k then color
        else Rgba.zero⟩).xyzis =
      [recOf w d k (if k = 0 then 1 else 2)] ∧
    ∃ pal, buildPalette (ArrayVoxelBuffer.scan ⟨w, d, h, fun n => if n = k then color
        else Rgba.zero⟩).colorIndices = some pal ∧
      pal[if k = 0 then 0 else 1]? = some color ∧
      ∀ j, j < 256 → j ≠ (if k = 0 then 0 else 1) → pal[j]? = some Rgba.zero := by
  obtain ⟨hx, hci⟩ := single_voxel_scan w d h k color hk ha
  rw [arrayScan_eq_scanOf]
  refine ⟨hx, ?_⟩
  rw [hci]
  by_cases hk0 : k = 0
  · by_cases h1 : w * d * h = 1
    · rw [if_pos hk0, if_pos h1, if_pos hk0, buildPalette_one]
      refine ⟨_, rfl, ?_, ?_⟩
      · rw [List.getElem?_set, List.length_replicate]
        norm_num
      · intro j hj hne
        rw [List.getElem?_set_ne (Ne.symm hne), List.getElem?_replicate, if_pos hj]
    · rw [if_pos hk0, if_neg h1, if_pos hk0, buildPalette_two]
      refine ⟨_, rfl, ?_, ?_⟩
      · rw [List.getElem?_set_ne (by decide : (1 : Nat) ≠ 0),
          List.getElem?_set, List.length_replicate]
        norm_num
      · intro j hj hne
        by_cases hj1 : j = 1
        · rw [hj1, List.getElem?_set, List.length_set, List.length_replicate]
          norm_num
        · rw [List.getElem?_set_ne (Ne.symm hj1), List.getElem?_set_ne (Ne.symm hne),
            List.getElem?_replicate, if_pos hj]
  · rw [if_neg hk0, if_neg hk0, buildPalette_two]
    refine ⟨_, rfl, ?_, ?_⟩
    · rw [List.getElem?_set, List.length_set, List.length_replicate]
      norm_num
    · intro j hj hne
      by_cases hj0 : j = 0
      · rw [hj0, List.getElem?_set_ne (by decide : (1 : Nat) ≠ 0),
          List.getElem?_set, List.length_replicate]
        norm_num
      · rw [List.getElem?_set_ne (Ne.symm hne), List.getElem?_set_ne (Ne.symm hj0),
          List.getElem?_replicate, if_pos hj]

theorem C1_witness :
    (ArrayVoxelBuffer.scan ⟨2, 1, 1, fun n => if n = 1 then (⟨255, 0, 0, 255⟩ : Rgba)
        else Rgba.zero⟩).xyzis =
      [recOf 2 1 1 (if 1 = 0 then 1 else 2)] ∧
    ∃ pal, buildPalette (ArrayVoxelBuffer.scan ⟨2, 1, 1, fun n =>
        if n = 1 then (⟨255, 0, 0, 255⟩ : Rgba) else Rgba.zero⟩).colorIndices =
        some pal ∧
      pal[if 1 = 0 then 0 else 1]? = some ⟨255, 0, 0, 255⟩ ∧
      ∀ j, j < 256 → j ≠ (if 1 = 0 then 0 else 1) → pal[j]? = some Rgba.zero :=
  C1_single_voxel_palette 2 1 1 1 ⟨255, 0, 0, 255⟩ (by decide) (by decide)

set_option maxRecDepth 8192 in
/-- C1 counterexample to the claim as stated: a 2×1×1 buffer whose only
opaque voxel sits at linear index 1 yields XYZI count 1, but the palette
entry at slot 1 (array index 0) is zero and the non-zero entry sits at
slot 2 (array index 1): slots are assigned to every distinct voxel value,
transparent ones included, so the claim's "non-zero entry at slot 1" and
"slots assigned only to voxels with non-zero alpha" both fail. -/
theorem C1_counterexample :
    (ArrayVoxelBuffer.scan ⟨2, 1, 1, fun n => if n = 1 then (⟨255, 0, 0, 255⟩ : Rgba)
        else Rgba.zero⟩).xyzis.length = 1 ∧
    (buildPalette (ArrayVoxelBuffer.scan ⟨2, 1, 1, fun n =>
        if n = 1 then (⟨255, 0, 0, 255⟩ : Rgba) else Rgba.zero⟩).colorIndices).bind
      (fun pal => pal[0]?) = some Rgba.zero ∧
    (buildPalette (ArrayVoxelBuffer.scan ⟨2, 1, 1, fun n =>
        if n = 1 then (⟨255, 0, 0, 255⟩ : Rgba) else Rgba.zero⟩).colorIndices).bind
      (fun pal => pal[1]?) = some ⟨255, 0, 0, 255⟩ ∧
    Rgba.zero ≠ (⟨255, 0, 0, 255⟩ : Rgba) := by
  refine ⟨by decide, by decide, by decide, by decide⟩

/-- Reference state for C10: the walk of `save` with the record coordinates
kept as full integers instead of the `as u8` bytes. -/
structure FullState where
  colorIndices : List (Rgba × Nat)
  index : Nat
  recs : List (Nat × Nat × Nat × Nat)
deriving DecidableEq, Repr

/-- The per-voxel body of `save` without the `as u8` coordinate casts:
identical to `processVoxel` except that the record keeps `(x, y, z, slot)`
untruncated. -/
def processVoxelFull (s : FullState) (x y z : Nat) (rgba : Rgba) : FullState :=
  match lookupColor s.colorIndices rgba with
  | none =>
      { colorIndices := s.colorIndices ++ [(rgba, s.index)]
        index := (s.index + 1) % 256
        recs := if rgba.a > 0 then s.recs ++ [(x, y, z, s.index)] else s.recs }
  | some i =>
      { colorIndices := s.colorIndices
        index := s.index
        recs := if rgba.a > 0 then s.recs ++ [(x, y, z, i)] else s.recs }

/-- The canonical walk with untruncated records. -/
def fullScanOf (w d h : Nat) (vox : Nat → Rgba) : FullState :=
  (List.range (w * d * h)).foldl
    (fun s n => processVoxelFull s (coordOf w d n).1 (coordOf w d n).2.1
      (coordOf w d n).2.2 (vox n))
    ⟨[], 1, []⟩

/-- Truncate a full record to the bytes `save` writes. -/
def truncRec (r : Nat × Nat × Nat × Nat) : List Nat :=
  [r.1 % 256, r.2.1 % 256, r.2.2.1 % 256, r.2.2.2]

theorem scan_trunc_aux (w d : Nat) (vox : Nat → Rgba) :
    ∀ (l : List Nat) (s : VoxState) (sf : FullState),
      s.colorIndices = sf.colorIndices → s.index = sf.index →
      s.xyzis = sf.recs.map truncRec →
      l.foldl (stepF w d vox) s =
        ⟨(l.foldl (fun t n => processVoxelFull t (coordOf w d n).1 (coordOf w d n).2.1
            (coordOf w d n).2.2 (vox n)) sf).colorIndices,
         (l.foldl (fun t n => processVoxelFull t (coordOf w d n).1 (coordOf w d n).2.1
            (coordOf w d n).2.2 (vox n)) sf).index,
         (l.foldl (fun t n => processVoxelFull t (coordOf w d n).1 (coordOf w d n).2.1
            (coordOf w d n).2.2 (vox n)) sf).recs.map truncRec⟩ := by
  intro l
  induction l with
  | nil =>
    intro s sf h1 h2 h3
    simp only [List.foldl_nil]
    rw [← h1, ← h2, ← h3]
  | cons i l ih =>
    intro s sf h1 h2 h3
    rw [List.foldl_cons, List.foldl_cons]
    refine ih _ _ ?_ ?_ ?_ <;>
      unfold stepF processVoxel processVoxelFull <;>
      rw [h1] <;>
      rcases hl : lookupColor sf.colorIndices (vox i) with _ | j <;>
      by_cases hv : (vox i).a > 0 <;>
      simp [hv, h1, h2, h3, truncRec]

/-- C10: every XYZI record byte triple is the voxel's coordinate reduced
modulo 256, in the same order and count as the untruncated reference walk
(no record is dropped or rejected); concretely, on a 257×1×1 buffer whose
only opaque voxel sits at x = 256, the record is emitted with x-byte 0
(256 mod 256) and palette slot 2. -/
theorem C10_coordinate_truncation :
    (∀ (w d h : Nat) (vox : Nat → Rgba),
      (scanOf w d h vox).xyzis = (fullScanOf w d h vox).recs.map truncRec) ∧
    (scanOf 257 1 1 (fun n => if n = 256 then (⟨255, 0, 0, 255⟩ : Rgba)
        else Rgba.zero)).xyzis = [[0, 0, 0, 2]] := by
  constructor
  · intro w d h vox
    rw [scanOf_def]
    have h := scan_trunc_aux w d vox (List.range (w * d * h)) VoxState.init
      ⟨[], 1, []⟩ rfl rfl rfl
    rw [h]
    rfl
  · obtain ⟨hx, _⟩ := single_voxel_scan 257 1 1 256 ⟨255, 0, 0, 255⟩
      (by decide) (by decide)
    rw [hx]
    decide

theorem chunk_length (ident : List Nat) (cs chs : Nat) (p : List Nat)
    (hid : ident.length = 4) : (chunk ident cs chs p).length = 12 + p.length := by
  simp [chunk, le32, List.length_append, hid]
  omega

/-- C7 (amended): whenever the total size fits `u32` (which holds up to
`2^30 - 279` records), every declared chunk size equals the actual payload
byte length and the MAIN children-size field equals the exact byte length
of the three child chunks with their 12-byte headers; beyond that the
declared fields are the true values reduced modulo `2^32`. -/
theorem C7_chunk_sizes (w d h : Nat) (vox : Nat → Rgba) (scan : VoxState)
    (pal : List Rgba)
    (hscan : ArrayVoxelBuffer.scan ⟨w, d, h, vox⟩ = scan)
    (hpal : buildPalette scan.colorIndices = some pal)
    (hfit : 12 * 3 + 12 + (4 + 4 * scan.xyzis.length) + 1024 < 2 ^ 32) :
    ArrayVoxelBuffer.save ⟨w, d, h, vox⟩ =
      some ([86, 79, 88, 32] ++ le32 150 ++
        chunk [77, 65, 73, 78] 0 (mainChildrenSizeVal scan.xyzis.length)
          (chunk [83, 73, 90, 69] 12 0 (sizePayload w d h) ++
           chunk [88, 89, 90, 73] (xyziChunkSizeVal scan.xyzis.length) 0
             (xyziPayload scan.xyzis) ++
           chunk [82, 71, 66, 65] 1024 0 (rgbaPayload pal))) ∧
    mainChildrenSizeVal scan.xyzis.length =
      (chunk [83, 73, 90, 69] 12 0 (sizePayload w d h) ++
       chunk [88, 89, 90, 73] (xyziChunkSizeVal scan.xyzis.length) 0
         (xyziPayload scan.xyzis) ++
       chunk [82, 71, 66, 65] 1024 0 (rgbaPayload pal)).length ∧
    xyziChunkSizeVal scan.xyzis.length = (xyziPayload scan.xyzis).length ∧
    (sizePayload w d h).length = 12 ∧
    (rgbaPayload pal).length = 1024 := by
  have hrec : ∀ r ∈ scan.xyzis, r.length = 4 := by
    rw [← hscan, arrayScan_eq_scanOf]
    exact scanOf_records_length w d h vox
  have hxp : (xyziPayload scan.xyzis).length = 4 + 4 * scan.xyzis.length := by
    unfold xyziPayload
    rw [List.length_append, flatten_length_four _ hrec]
    simp [le32]
  have hsp : (sizePayload w d h).length = 12 := by
    simp [sizePayload, le32]
  have hrp : (rgbaPayload pal).length = 1024 := by
    unfold rgbaPayload
    rw [flatten_length_four _ ?_]
    · rw [List.length_map, buildPalette_length _ _ hpal]
    · intro r hr
      obtain ⟨c, _, hceq⟩ := List.mem_map.mp hr
      rw [← hceq]
      rfl
  have hLlt : scan.xyzis.length % 2 ^ 32 = scan.xyzis.length :=
    Nat.mod_eq_of_lt (by omega)
  have hxcs : xyziChunkSizeVal scan.xyzis.length = 4 + scan.xyzis.length * 4 := by
    unfold xyziChunkSizeVal
    rw [hLlt]
    exact Nat.mod_eq_of_lt (by omega)
  have hmcs : mainChildrenSizeVal scan.xyzis.length = 1076 + 4 * scan.xyzis.length := by
    unfold mainChildrenSizeVal
    rw [hxcs, Nat.mod_eq_of_lt (by omega)]
    omega
  have hsave : ArrayVoxelBuffer.save ⟨w, d, h, vox⟩ =
      some ([86, 79, 88, 32] ++ le32 150 ++
        chunk [77, 65, 73, 78] 0 (mainChildrenSizeVal scan.xyzis.length)
          (chunk [83, 73, 90, 69] 12 0 (sizePayload w d h) ++
           chunk [88, 89, 90, 73] (xyziChunkSizeVal scan.xyzis.length) 0
             (xyziPayload scan.xyzis) ++
           chunk [82, 71, 66, 65] 1024 0 (rgbaPayload pal))) := by
    unfold ArrayVoxelBuffer.save
    dsimp only
    rw [hscan]
    unfold vox_file_bytes
    rw [hpal]
  refine ⟨hsave, ?_, by omega, hsp, hrp⟩
  rw [List.length_append, List.length_append,
    chunk_length _ _ _ _ (by rfl), chunk_length _ _ _ _ (by rfl),
    chunk_length _ _ _ _ (by rfl), hsp, hxp, hrp, hmcs]
  omega

set_option maxRecDepth 8192 in
theorem C7_witness :
    ArrayVoxelBuffer.save ⟨1, 1, 1, fun _ => (⟨255, 0, 0, 255⟩ : Rgba)⟩ =
      some ([86, 79, 88, 32] ++ le32 150 ++
        chunk [77, 65, 73, 78] 0 (mainChildrenSizeVal
            (⟨[(⟨255, 0, 0, 255⟩, 1)], 2, [[0, 0, 0, 1]]⟩ : VoxState).xyzis.length)
          (chunk [83, 73, 90, 69] 12 0 (sizePayload 1 1 1) ++
           chunk [88, 89, 90, 73] (xyziChunkSizeVal
               (⟨[(⟨255, 0, 0, 255⟩, 1)], 2, [[0, 0, 0, 1]]⟩ : VoxState).xyzis.length) 0
             (xyziPayload (⟨[(⟨255, 0, 0, 255⟩, 1)], 2,
               [[0, 0, 0, 1]]⟩ : VoxState).xyzis) ++
           chunk [82, 71, 66, 65] 1024 0
             (rgbaPayload ((List.replicate 256 Rgba.zero).set 0 ⟨255, 0, 0, 255⟩)))) ∧
    mainChildrenSizeVal
        (⟨[(⟨255, 0, 0, 255⟩, 1)], 2, [[0, 0, 0, 1]]⟩ : VoxState).xyzis.length =
      (chunk [83, 73, 90, 69] 12 0 (sizePayload 1 1 1) ++
       chunk [88, 89, 90, 73] (xyziChunkSizeVal
           (⟨[(⟨255, 0, 0, 255⟩, 1)], 2, [[0, 0, 0, 1]]⟩ : VoxState).xyzis.length) 0
         (xyziPayload (⟨[(⟨255, 0, 0, 255⟩, 1)], 2, [[0, 0, 0, 1]]⟩ : VoxState).xyzis) ++
       chunk [82, 71, 66, 65] 1024 0
         (rgbaPayload ((List.replicate 256 Rgba.zero).set 0 ⟨255, 0, 0, 255⟩))).length ∧
    xyziChunkSizeVal
        (⟨[(⟨255, 0, 0, 255⟩, 1)], 2, [[0, 0, 0, 1]]⟩ : VoxState).xyzis.length =
      (xyziPayload (⟨[(⟨255, 0, 0, 255⟩, 1)], 2,
        [[0, 0, 0, 1]]⟩ : VoxState).xyzis).length ∧
    (sizePayload 1 1 1).length = 12 ∧
    (rgbaPayload ((List.replicate 256 Rgba.zero).set 0 ⟨255, 0, 0, 255⟩)).length =
      1024 :=
  C7_chunk_sizes 1 1 1 (fun _ => ⟨255, 0, 0, 255⟩)
    ⟨[(⟨255, 0, 0, 255⟩, 1)], 2, [[0, 0, 0, 1]]⟩
    ((List.replicate 256 Rgba.zero).set 0 ⟨255, 0, 0, 255⟩)
    (by rfl) (by rfl) (by decide)

/-- C7 counterexample to the claim as stated: an all-opaque 1024×1024×1024
buffer emits `N = 2^30` records; `save` still produces a file, but the
declared XYZI content-size is `(4 + 4·N) mod 2^32 = 4` (wrapping `u32`
arithmetic) while the actual XYZI payload is `4 + 4·N` bytes. -/
theorem C7_counterexample :
    (ArrayVoxelBuffer.save ⟨1024, 1024, 1024,
        fun _ => (⟨255, 0, 0, 255⟩ : Rgba)⟩).isSome = true ∧
    xyziChunkSizeVal (ArrayVoxelBuffer.scan ⟨1024, 1024, 1024,
        fun _ => (⟨255, 0, 0, 255⟩ : Rgba)⟩).xyzis.length ≠
      (xyziPayload (ArrayVoxelBuffer.scan ⟨1024, 1024, 1024,
        fun _ => (⟨255, 0, 0, 255⟩ : Rgba)⟩).xyzis).length := by
  have hscan : ArrayVoxelBuffer.scan ⟨1024, 1024, 1024,
      fun _ => (⟨255, 0, 0, 255⟩ : Rgba)⟩ =
      ⟨[(⟨255, 0, 0, 255⟩, 1)], 2,
        (List.range (1024 * 1024 * 1024)).map (fun i => recOf 1024 1024 i 1)⟩ := by
    rw [arrayScan_eq_scanOf]
    exact const_color_scan 1024 1024 1024 ⟨255, 0, 0, 255⟩ (by decide) (by norm_num)
  constructor
  · unfold ArrayVoxelBuffer.save
    dsimp only
    rw [hscan]
    unfold vox_file_bytes
    rw [buildPalette_one]
    rfl
  · rw [hscan]
    have hrec : ∀ r ∈ (List.range (1024 * 1024 * 1024)).map
        (fun i => recOf 1024 1024 i 1), r.length = 4 := by
      intro r hr
      obtain ⟨i, _, hi⟩ := List.mem_map.mp hr
      rw [← hi]
      rfl
    dsimp only
    have hpay : (xyziPayload ((List.range (1024 * 1024 * 1024)).map
        (fun i => recOf 1024 1024 i 1))).length = 4 + 4 * (1024 * 1024 * 1024) := by
      unfold xyziPayload
      rw [List.length_append, flatten_length_four _ hrec, List.length_map,
        List.length_range]
      simp [le32]
    rw [hpay, List.length_map, List.length_range]
    unfold xyziChunkSizeVal
    norm_num


/-- `parse_sentence` over a fully recognized prefix: it consumes the
prefix and continues into the remainder. -/
theorem parse_sentence_append (good : List Char) (l : List Char)
    (hg : ∀ c ∈ good, (charCommand c).isSome) :
    parse_sentence (good ++ l) =
      ((parse_sentence l).1, good.filterMap charCommand ++ (parse_sentence l).2) := by
  induction good with
  | nil => simp
  | cons c good ih =>
    have hc := hg c (List.mem_cons_self c good)
    obtain ⟨cmd, hcmd⟩ := Option.isSome_iff_exists.mp hc
    show parse_sentence (c :: (good ++ l)) = _
    rw [show parse_sentence (c :: (good ++ l)) =
        match charCommand c with
        | none => (c :: (good ++ l), [])
        | some cmd =>
          ((parse_sentence (good ++ l)).1, cmd :: (parse_sentence (good ++ l)).2)
      from rfl]
    rw [hcmd, ih (fun x hx => hg x (List.mem_cons_of_mem c hx)),
      List.filterMap_cons, hcmd]
    rfl

/-- `parse_sentence` stops dead at an unrecognized character. -/
theorem parse_sentence_stop (bad : Char) (rest : List Char)
    (hb : charCommand bad = none) :
    parse_sentence (bad :: rest) = (bad :: rest, []) := by
  rw [show parse_sentence (bad :: rest) =
      match charCommand bad with
      | none => (bad :: rest, [])
      | some cmd =>
        ((parse_sentence rest).1, cmd :: (parse_sentence rest).2)
    from rfl]
  rw [hb]

theorem charCommand_arrow : charCommand '→' = none := by decide

/-- A rule whose left side is fully recognized and followed by the arrow:
the production is keyed by the first left-side symbol and holds the parsed
prefix of the right side. -/
theorem ruleStep_arrow (lhs X : List Char)
    (hlhs : ∀ c ∈ lhs, (charCommand c).isSome) :
    ruleStep (lhs ++ '→' :: X) =
      match lhs.filterMap charCommand with
      | [] => none
      | k :: _ => some (k, (parse_sentence X).2) := by
  unfold ruleStep
  rw [parse_sentence_append lhs ('→' :: X) hlhs,
    parse_sentence_stop '→' X charCommand_arrow]
  simp only [List.append_nil]

/-- A rule whose left side hits an unrecognized non-arrow character: the
arrow tag fails and the rule is rejected. -/
theorem ruleStep_stuck (good rest : List Char) (bad : Char)
    (hg : ∀ c ∈ good, (charCommand c).isSome) (hb : charCommand bad = none)
    (hne : bad ≠ '→') :
    ruleStep (good ++ bad :: rest) = none := by
  unfold ruleStep
  rw [parse_sentence_append good (bad :: rest) hg,
    parse_sentence_stop bad rest hb]
  split
  · rename_i r2 heq
    exact absurd (List.head_eq_of_cons_eq heq) hne
  · rfl

/-- C3 (amended): an unrecognized character aborts grammar construction
only when it stands in a rule's left side, where it makes the arrow tag
fail.  In the axiom and in a rule's right side it never causes a failure:
parsing stops at the first unrecognized character, that character and
everything after it are silently dropped, and a grammar value is still
produced. -/
theorem C3_unrecognized_characters :
    (∀ (name : String) (good rest : List Char) (bad : Char)
        (rules : List (List Char)),
        (∀ c ∈ good, (charCommand c).isSome) → charCommand bad = none →
        LSystem.new name (good ++ bad :: rest) rules =
          LSystem.new name good rules) ∧
    (∀ (name : String) (ax lhs rhsGood rest : List Char) (bad : Char),
        (∀ c ∈ lhs, (charCommand c).isSome) →
        (∀ c ∈ rhsGood, (charCommand c).isSome) → charCommand bad = none →
        LSystem.new name ax [lhs ++ '→' :: (rhsGood ++ bad :: rest)] =
          LSystem.new name ax [lhs ++ '→' :: rhsGood]) ∧
    (∀ (name : String) (ax good rest : List Char) (bad : Char),
        (∀ c ∈ good, (charCommand c).isSome) → charCommand bad = none →
        bad ≠ '→' →
        LSystem.new name ax [good ++ bad :: rest] = none) := by
  refine ⟨?_, ?_, ?_⟩
  · intro name good rest bad rules hg hb
    unfold LSystem.new
    cases hp : parse_productions rules with
    | none => rfl
    | some m =>
      have h1 := parse_sentence_append good (bad :: rest) hg
      rw [parse_sentence_stop bad rest hb] at h1
      have h2 := parse_sentence_append good [] hg
      rw [List.append_nil] at h2
      rw [h1, h2]
      simp [parse_sentence]
  · intro name ax lhs rhsGood rest bad hlhs hrhs hb
    unfold LSystem.new parse_productions parseProdLoop
    rw [ruleStep_arrow lhs (rhsGood ++ bad :: rest) hlhs,
      ruleStep_arrow lhs rhsGood hlhs]
    have h3 := parse_sentence_append rhsGood (bad :: rest) hrhs
    rw [parse_sentence_stop bad rest hb] at h3
    have h4 := parse_sentence_append rhsGood [] hrhs
    rw [List.append_nil] at h4
    rw [h3, h4]
    cases lhs.filterMap charCommand with
    | nil => rfl
    | cons k ks => simp [parse_sentence]
  · intro name ax good rest bad hg hb hne
    unfold LSystem.new parse_productions parseProdLoop
    rw [ruleStep_stuck good rest bad hg hb hne]

/-- Witness for the three parts of C3 at concrete inputs: the axiom
`"FXF"` silently loses `"XF"`; the rule `"F→FXF"` silently loses `"XF"`;
the rule `"FX→F"` aborts construction. -/
theorem C3_witness :
    (LSystem.new "t" (['F'] ++ 'X' :: ['F']) [] = LSystem.new "t" ['F'] []) ∧
    (LSystem.new "t" ['F'] [['F'] ++ '→' :: (['F'] ++ 'X' :: ['F'])] =
      LSystem.new "t" ['F'] [['F'] ++ '→' :: ['F']]) ∧
    (LSystem.new "t" ['F'] [['F'] ++ 'X' :: ['→', 'F']] = none) :=
  ⟨C3_unrecognized_characters.1 "t" ['F'] ['F'] 'X' [] (by decide) (by decide),
   C3_unrecognized_characters.2.1 "t" ['F'] ['F'] ['F'] ['F'] 'X'
     (by decide) (by decide) (by decide),
   C3_unrecognized_characters.2.2 "t" ['F'] ['F'] ['→', 'F'] 'X'
     (by decide) (by decide) (by decide)⟩

/-- C3 counterexample to the claim as stated: the axiom `"X"` contains an
unrecognized character, yet construction succeeds and yields a grammar
whose axiom is empty — the character was silently dropped, not rejected. -/
theorem C3_counterexample :
    LSystem.new "x" ['X'] [] = some ⟨"x", [], []⟩ := rfl

/-- A gradient shorter than the remaining points always ends in the
out-of-range panic (the loop either fails earlier at a write or reaches an
index past the gradient's end). -/
theorem drawGradLoop_short (g : List Rgba) :
    ∀ (pts : List (ℤ × ℤ)) (i : Nat) (b : ArrayVoxelBuffer),
      g.length < i + pts.length → pts ≠ [] →
      drawGradLoop g i b pts = none := by
  intro pts
  induction pts with
  | nil => intro i b _ hne; exact absurd rfl hne
  | cons p ps ih =>
    intro i b hlen _
    by_cases hi : i < g.length
    · have hg : g[i]? = some g[i] := List.getElem?_eq_getElem hi
      show (match g[i]? with
        | none => none
        | some c =>
          match voxelSetI b p c with
          | none => none
          | some b2 => drawGradLoop g (i + 1) b2 ps) = none
      rw [hg]
      have hps : ps ≠ [] := by
        intro h
        subst h
        simp at hlen
        omega
      show (match voxelSetI b p g[i] with
        | none => none
        | some b2 => drawGradLoop g (i + 1) b2 ps) = none
      cases hset : voxelSetI b p g[i] with
      | none => rfl
      | some b2 => exact ih (i + 1) b2 (by simp at hlen; omega) hps
    · have hg : g[i]? = none := List.getElem?_eq_none (by omega)
      show (match g[i]? with
        | none => none
        | some c =>
          match voxelSetI b p c with
          | none => none
          | some b2 => drawGradLoop g (i + 1) b2 ps) = none
      rw [hg]

/-- With enough colors, the loop performs exactly the writes that pair the
`i`-th rasterized point with the `i`-th color, in emission order. -/
theorem drawGradLoop_zip (g : List Rgba) :
    ∀ (pts : List (ℤ × ℤ)) (i : Nat) (b : ArrayVoxelBuffer),
      i + pts.length ≤ g.length →
      drawGradLoop g i b pts = applyWrites b (pts.zip (g.drop i)) := by
  intro pts
  induction pts with
  | nil =>
    intro i b _
    simp [drawGradLoop, applyWrites]
  | cons p ps ih =>
    intro i b hlen
    have hi : i < g.length := by simp at hlen; omega
    have hg : g[i]? = some g[i] := List.getElem?_eq_getElem hi
    have hdrop : g.drop i = g[i] :: g.drop (i + 1) :=
      (List.getElem_cons_drop g i hi).symm
    show (match g[i]? with
      | none => none
      | some c =>
        match voxelSetI b p c with
        | none => none
        | some b2 => drawGradLoop g (i + 1) b2 ps) = _
    rw [hg, hdrop, List.zip_cons_cons]
    show (match voxelSetI b p g[i] with
      | none => none
      | some b2 => drawGradLoop g (i + 1) b2 ps) =
      applyWrites b ((p, g[i]) :: ps.zip (g.drop (i + 1)))
    have happ : applyWrites b ((p, g[i]) :: ps.zip (g.drop (i + 1))) =
        match voxelSetI b p g[i] with
        | none => none
        | some b2 => applyWrites b2 (ps.zip (g.drop (i + 1))) := by
      unfold applyWrites
      rw [List.foldlM_cons]
      cases voxelSetI b p g[i] with
      | none => rfl
      | some b2 => rfl
    rw [happ]
    cases hset : voxelSetI b p g[i] with
    | none => rfl
    | some b2 => exact ih (i + 1) b2 (by simp at hlen; omega)

/-- C8: `draw_gradient` writes the `i`-th rasterized lattice point of the
travelled segment with the `i`-th color of the gradient, one color per
point in emission order (`applyWrites` of the point/color zip), and panics
when the gradient is shorter than the rasterized point count. -/
theorem C8_draw_gradient (t : TurtleGraphics) (s : ℝ) (g : List Rgba) :
    (g.length < (bresenham (t.state.x, t.state.y)
        ((t.step s).state.x, (t.step s).state.y)).length →
      t.draw_gradient s g = none) ∧
    ((bresenham (t.state.x, t.state.y)
        ((t.step s).state.x, (t.step s).state.y)).length ≤ g.length →
      t.draw_gradient s g =
        (applyWrites t.buf ((bresenham (t.state.x, t.state.y)
            ((t.step s).state.x, (t.step s).state.y)).zip g)).map
          (fun b => ⟨b, (t.step s).state⟩)) := by
  constructor
  · intro hlen
    unfold TurtleGraphics.draw_gradient
    dsimp only
    rw [drawGradLoop_short g _ 0 t.buf (by omega) ?_]
    · rfl
    · intro h
      rw [h] at hlen
      simp at hlen
  · intro hlen
    unfold TurtleGraphics.draw_gradient
    dsimp only
    rw [drawGradLoop_zip g _ 0 t.buf (by omega)]
    rw [List.drop_zero]

theorem C8_witness :
    ((TurtleGraphics.new 3 3 3).draw_gradient 0 [] = none) ∧
    ((TurtleGraphics.new 3 3 3).draw_gradient 0 [⟨9, 9, 9, 9⟩] =
      (applyWrites (TurtleGraphics.new 3 3 3).buf
          ((bresenham ((TurtleGraphics.new 3 3 3).state.x,
              (TurtleGraphics.new 3 3 3).state.y)
            (((TurtleGraphics.new 3 3 3).step 0).state.x,
              ((TurtleGraphics.new 3 3 3).step 0).state.y)).zip
            [⟨9, 9, 9, 9⟩])).map
        (fun b => ⟨b, ((TurtleGraphics.new 3 3 3).step 0).state⟩)) := by
  have hstep : (TurtleGraphics.new 3 3 3).step 0 =
      ⟨⟨3, 3, 3, fun _ => Rgba.zero⟩, ⟨0, 0, 0⟩⟩ := by
    unfold TurtleGraphics.step TurtleGraphics.new
    simp [rtrunc]
  have hpts : bresenham ((TurtleGraphics.new 3 3 3).state.x,
      (TurtleGraphics.new 3 3 3).state.y)
      (((TurtleGraphics.new 3 3 3).step 0).state.x,
        ((TurtleGraphics.new 3 3 3).step 0).state.y) = [(0, 0)] := by
    rw [hstep]
    decide
  constructor
  · exact (C8_draw_gradient (TurtleGraphics.new 3 3 3) 0 []).1
      (by rw [hpts]; decide)
  · exact (C8_draw_gradient (TurtleGraphics.new 3 3 3) 0 [⟨9, 9, 9, 9⟩]).2
      (by rw [hpts]; decide)

/-- An in-bounds rasterized write, with the `as u32` casts evaluated. -/
theorem voxelSetI_in (sx sy sz : Nat) (v0 : Nat → Rgba) (px py : ℤ) (c : Rgba)
    (qx qy : Nat) (hqx : u32ofInt px = qx) (hqy : u32ofInt py = qy)
    (hx : qx < sx) (hy : qy < sy) (hz : 0 < sz) :
    voxelSetI ⟨sx, sy, sz, v0⟩ (px, py) c =
      some ⟨sx, sy, sz, fun n => if n = linearId sx sy qx qy 0 then c else v0 n⟩ := by
  unfold voxelSetI ArrayVoxelBuffer.voxel_set
  dsimp only
  rw [hqx, hqy, if_pos ⟨hx, hy, hz⟩]

/-- Full evaluation of the doc-example scenario of turtle.rs: `new(3,3,3)`,
`step(1.0)` (east to `(1,0)`), `left(π/2)`, `draw(2.0)` (north to `(1,2)`),
rasterizing `(1,0)`, `(1,1)`, `(1,2)` — the voxels at linear indices 1, 4
and 7. -/
theorem scenario_eval :
    (((TurtleGraphics.new 3 3 3).step 1).left (Real.pi / 2)).draw 2 =
      some ⟨⟨3, 3, 3, fun n =>
        if n = 1 ∨ n = 4 ∨ n = 7 then ⟨0, 0, 0, 255⟩ else Rgba.zero⟩,
        ⟨1, 2, Real.pi / 2⟩⟩ := by
  have hstep1 : (TurtleGraphics.new 3 3 3).step 1 =
      ⟨⟨3, 3, 3, fun _ => Rgba.zero⟩, ⟨1, 0, 0⟩⟩ := by
    unfold TurtleGraphics.step TurtleGraphics.new
    simp [rtrunc]
  have hchain : ((TurtleGraphics.new 3 3 3).step 1).left (Real.pi / 2) =
      ⟨⟨3, 3, 3, fun _ => Rgba.zero⟩, ⟨1, 0, Real.pi / 2⟩⟩ := by
    rw [hstep1]
    unfold TurtleGraphics.left
    simp
  have hstep2 : (⟨⟨3, 3, 3, fun _ => Rgba.zero⟩,
      ⟨1, 0, Real.pi / 2⟩⟩ : TurtleGraphics).step 2 =
      ⟨⟨3, 3, 3, fun _ => Rgba.zero⟩, ⟨1, 2, Real.pi / 2⟩⟩ := by
    unfold TurtleGraphics.step
    simp [rtrunc, Real.cos_pi_div_two, Real.sin_pi_div_two]
  rw [hchain]
  unfold TurtleGraphics.draw
  dsimp only
  rw [hstep2]
  have hbres : bresenham ((1 : ℤ), (0 : ℤ)) ((1 : ℤ), (2 : ℤ)) =
      [(1, 0), (1, 1), (1, 2)] := by decide
  dsimp only
  rw [hbres]
  have hw1 := voxelSetI_in 3 3 3 (fun _ => Rgba.zero) 1 0 ⟨0, 0, 0, 255⟩ 1 0
    (by decide) (by decide) (by decide) (by decide) (by decide)
  have hw2 := voxelSetI_in 3 3 3
    (fun n => if n = linearId 3 3 1 0 0 then ⟨0, 0, 0, 255⟩ else
      (fun _ => Rgba.zero) n) 1 1 ⟨0, 0, 0, 255⟩ 1 1
    (by decide) (by decide) (by decide) (by decide) (by decide)
  have hw3 := voxelSetI_in 3 3 3
    (fun n => if n = linearId 3 3 1 1 0 then ⟨0, 0, 0, 255⟩ else
      (fun n => if n = linearId 3 3 1 0 0 then ⟨0, 0, 0, 255⟩ else
        (fun _ => Rgba.zero) n) n) 1 2 ⟨0, 0, 0, 255⟩ 1 2
    (by decide) (by decide) (by decide) (by decide) (by decide)
  simp only [List.foldlM_cons, List.foldlM_nil, Option.bind_eq_bind, hw1,
    Option.some_bind, hw2, hw3, Option.pure_def, Option.map_some']
  have hfun : (fun n =>
      if n = linearId 3 3 1 2 0 then (⟨0, 0, 0, 255⟩ : Rgba)
      else if n = linearId 3 3 1 1 0 then ⟨0, 0, 0, 255⟩
      else if n = linearId 3 3 1 0 0 then ⟨0, 0, 0, 255⟩
      else Rgba.zero) =
      fun n => if n = 1 ∨ n = 4 ∨ n = 7 then (⟨0, 0, 0, 255⟩ : Rgba)
      else Rgba.zero := by
    funext n
    simp only [show linearId 3 3 1 0 0 = 1 from by decide,
      show linearId 3 3 1 1 0 = 4 from by decide,
      show linearId 3 3 1 2 0 = 7 from by decide]
    by_cases h7 : n = 7
    · simp [h7]
    · by_cases h4 : n = 4
      · simp [h4, h7]
      · by_cases h1 : n = 1
        · simp [h1, h4, h7]
        · simp [h1, h4, h7]
  rw [hfun]

/-- C2 (amended): on a 3×3×3 buffer, a turtle at `(0, 0)` heading 0 (east)
that runs `step(1.0)`, `left(π/2)`, `draw(2.0)` sets exactly the voxels
`(1, 0, 0)`, `(1, 1, 0)` and `(1, 2, 0)` to the default draw color
`[0, 0, 0, 255]` (the drawn segment starts at the post-step position
`(1, 0)` and includes it) and leaves `(0, 0, 0)` — and every other
voxel — at its zero-initialized value. -/
theorem C2_turtle_scenario :
    (((TurtleGraphics.new 3 3 3).step 1).left (Real.pi / 2)).draw 2 =
      some ⟨⟨3, 3, 3, fun n =>
        if n = linearId 3 3 1 0 0 ∨ n = linearId 3 3 1 1 0 ∨ n = linearId 3 3 1 2 0
        then ⟨0, 0, 0, 255⟩ else Rgba.zero⟩,
        ⟨1, 2, Real.pi / 2⟩⟩ := by
  rw [scenario_eval]
  simp only [show linearId 3 3 1 0 0 = 1 from by decide,
    show linearId 3 3 1 1 0 = 4 from by decide,
    show linearId 3 3 1 2 0 = 7 from by decide]

/-- C2 counterexample to the claim as stated: after the scenario, the
voxel at coordinate `(0, 1, 0)` (linear index 3) — which the claim says is
set to `[0, 0, 0, 255]` — still holds its zero-initialized value. -/
theorem C2_counterexample :
    ((((TurtleGraphics.new 3 3 3).step 1).left (Real.pi / 2)).draw 2).map
        (fun t => t.buf.vox (linearId 3 3 0 1 0)) = some Rgba.zero ∧
      Rgba.zero ≠ (⟨0, 0, 0, 255⟩ : Rgba) := by
  constructor
  · rw [scenario_eval]
    simp only [Option.map_some']
    rw [show linearId 3 3 0 1 0 = 3 from by decide]
    rfl
  · decide
